import Mathlib

/-!
Shallow embedding of the monitoring core of the instagram-discord-bot
repository: the circuit breaker (src/utils/circuitBreaker.js), the
monitor service (src/services/monitor.js), the fetch strategy chain
(src/services/instagram.js) and the retry / post-id helpers
(src/utils/helpers.js).  JavaScript `Map` objects are modelled as
insertion-ordered association lists, timestamps (`Date.now()`) are passed
explicitly as integers, and every method that mutates `this` is modelled
as a function returning the updated state.
-/

/-- Lookup in an insertion-ordered association list (JS `Map.get`). -/
def alGet {α : Type} (m : List (String × α)) (k : String) : Option α :=
  (m.find? (fun p => p.1 = k)).map (fun p => p.2)

/-- Update in an insertion-ordered association list (JS `Map.set`):
replaces the value in place when the key is present, appends otherwise. -/
def alSet {α : Type} (m : List (String × α)) (k : String) (v : α) :
    List (String × α) :=
  match m with
  | [] => [(k, v)]
  | (k0, v0) :: t => if k0 = k then (k, v) :: t else (k0, v0) :: alSet t k v

/-- Removal from an association list (JS `Map.delete`). -/
def alDelete {α : Type} (m : List (String × α)) (k : String) :
    List (String × α) :=
  m.filter (fun p => p.1 ≠ k)

/-- First-occurrence deduplication of a key list (JS `new Set([...])`
preserves the first occurrence of each element). -/
def dedupKeys : List String → List String
  | [] => []
  | k :: t => k :: (dedupKeys t).filter (fun k0 => k0 ≠ k)

/-- Circuit state: `'closed' | 'open' | 'half-open'` in the source. -/
inductive CState where
  | closed
  | opened
  | halfOpen
deriving DecidableEq, Repr

/-- The `CircuitBreaker` class state (src/utils/circuitBreaker.js):
`failureThreshold`, `resetTimeoutMs` and the three per-key maps. -/
structure CircuitBreaker where
  failureThreshold : Nat
  resetTimeoutMs : Int
  failures : List (String × Nat)
  lastFailureTime : List (String × Int)
  state : List (String × CState)
deriving DecidableEq, Repr

namespace CircuitBreaker

/-- `new CircuitBreaker(failureThreshold, resetTimeoutMs)`. -/
def init (threshold : Nat) (resetTimeout : Int) : CircuitBreaker :=
  { failureThreshold := threshold
    resetTimeoutMs := resetTimeout
    failures := []
    lastFailureTime := []
    state := [] }

/-- `this.state.get(key) || 'closed'` (the states are non-empty strings,
so `||` only substitutes for a missing entry). -/
def stateOf (cb : CircuitBreaker) (key : String) : CState :=
  (alGet cb.state key).getD .closed

/-- `isOpen(key)`: when the state is open and the stamped last-failure
time is truthy (nonzero) with `now - lastFailure >= resetTimeoutMs`, the
state moves to half-open and the call returns false; otherwise it returns
true exactly when the state is open.  Returns the boolean result together
with the updated breaker. -/
def isOpen (cb : CircuitBreaker) (key : String) (now : Int) :
    Bool × CircuitBreaker :=
  if cb.stateOf key = .opened then
    match alGet cb.lastFailureTime key with
    | some lastFailure =>
        if lastFailure ≠ 0 ∧ now - lastFailure ≥ cb.resetTimeoutMs then
          (false, { cb with state := alSet cb.state key .halfOpen })
        else (true, cb)
    | none => (true, cb)
  else (false, cb)

/-- `recordSuccess(key)`: reset the failure count and close the circuit. -/
def recordSuccess (cb : CircuitBreaker) (key : String) : CircuitBreaker :=
  { cb with failures := alSet cb.failures key 0
            state := alSet cb.state key .closed }

/-- `recordFailure(key)`: increment the count and stamp the failure time;
a half-open circuit reopens (returning true), a count reaching
`failureThreshold` opens the circuit (returning true), and otherwise the
call returns false. -/
def recordFailure (cb : CircuitBreaker) (key : String) (now : Int) :
    Bool × CircuitBreaker :=
  let currentFailures := (alGet cb.failures key).getD 0 + 1
  let cb1 := { cb with failures := alSet cb.failures key currentFailures
                       lastFailureTime := alSet cb.lastFailureTime key now }
  if cb.stateOf key = .halfOpen then
    (true, { cb1 with state := alSet cb1.state key .opened })
  else if currentFailures ≥ cb.failureThreshold then
    (true, { cb1 with state := alSet cb1.state key .opened })
  else (false, cb1)

/-- `getState(key)`: `if (this.isOpen(key)) return 'open'` (note that the
`isOpen` call may itself move the state to half-open), else the stored
state. -/
def getState (cb : CircuitBreaker) (key : String) (now : Int) :
    CState × CircuitBreaker :=
  let r := cb.isOpen key now
  if r.1 then (.opened, r.2) else (r.2.stateOf key, r.2)

/-- `getFailureCount(key)`. -/
def getFailureCount (cb : CircuitBreaker) (key : String) : Nat :=
  (alGet cb.failures key).getD 0

/-- `getRemainingResetTime(key)`: calls `getState` (which may mutate),
returns 0 unless the state is open and a truthy failure time exists. -/
def getRemainingResetTime (cb : CircuitBreaker) (key : String) (now : Int) :
    Int × CircuitBreaker :=
  let r := cb.getState key now
  if r.1 ≠ .opened then (0, r.2)
  else
    match alGet r.2.lastFailureTime key with
    | none => (0, r.2)
    | some lastFailure =>
        if lastFailure = 0 then (0, r.2)
        else (max 0 (cb.resetTimeoutMs - (now - lastFailure)), r.2)

/-- `reset(key)`: delete the key from all three maps. -/
def reset (cb : CircuitBreaker) (key : String) : CircuitBreaker :=
  { cb with failures := alDelete cb.failures key
            lastFailureTime := alDelete cb.lastFailureTime key
            state := alDelete cb.state key }

/-- `resetAll()`. -/
def resetAll (cb : CircuitBreaker) : CircuitBreaker :=
  { cb with failures := [], lastFailureTime := [], state := [] }

/-- One entry of `getAllStatuses()`. -/
structure Status where
  key : String
  state : CState
  failures : Nat
  remainingResetTime : Int
deriving DecidableEq, Repr

/-- `getAllStatuses()`: enumerate the union of the failure-map and
state-map keys (first-occurrence order) and build a status per key; the
`getState` and `getRemainingResetTime` calls thread their mutations. -/
def getAllStatuses (cb : CircuitBreaker) (now : Int) :
    List Status × CircuitBreaker :=
  let keys := dedupKeys (cb.failures.map Prod.fst ++ cb.state.map Prod.fst)
  keys.foldl
    (fun acc k =>
      let r1 := acc.2.getState k now
      let fails := r1.2.getFailureCount k
      let r2 := r1.2.getRemainingResetTime k now
      (acc.1 ++ [{ key := k, state := r1.1, failures := fails
                   remainingResetTime := r2.1 }], r2.2))
    ([], cb)

end CircuitBreaker

/-- A fetched post as produced by the Instagram service strategies
(src/services/instagram.js): id, url, title, description and a numeric
publication timestamp. -/
structure Post where
  id : String
  url : String
  title : String
  description : String
  publishedAt : Int
deriving DecidableEq, Repr

/-- A tracked account row as read by the monitor
(src/services/database.js `instagram_accounts`): numeric id, username and
the nullable `last_post_id` marker. -/
structure Account where
  id : Nat
  username : String
  lastPostId : Option String
deriving DecidableEq, Repr

/-- The external collaborators `checkAccount` consults: the fetch result
of `instagram.getLatestPost(username)` (null on total failure — the fetch
chain catches its own errors and returns an empty list), the history query
`db.hasPostBeenNotified(accountId, postId)` and the number of notification
settings `db.getNotificationSettings(accountId).length`. -/
structure MonitorEnv where
  fetch : String → Option Post
  hasNotified : Nat → String → Bool
  settingsCount : Nat → Nat

/-- The externally visible calls a check makes: `sendNotification`
deliveries, `addPostToHistory` inserts, `updateLastChecked` and
`updateLastPostId` database writes, and `cleanupOldHistory` invocations. -/
structure Effects where
  deliveries : List (Nat × String)
  historyAdds : List (Nat × String)
  lastCheckedUpdates : List Nat
  lastPostIdUpdates : List (Nat × String)
  cleanups : Nat
deriving DecidableEq, Repr

namespace Effects

def empty : Effects :=
  { deliveries := [], historyAdds := [], lastCheckedUpdates := []
    lastPostIdUpdates := [], cleanups := 0 }

def append (a b : Effects) : Effects :=
  { deliveries := a.deliveries ++ b.deliveries
    historyAdds := a.historyAdds ++ b.historyAdds
    lastCheckedUpdates := a.lastCheckedUpdates ++ b.lastCheckedUpdates
    lastPostIdUpdates := a.lastPostIdUpdates ++ b.lastPostIdUpdates
    cleanups := a.cleanups + b.cleanups }

end Effects

/-- `isNewPost(account, post)` (monitor.js): false when `last_post_id` is
falsy (absent or the empty string — the first-check suppression), false
when the ids coincide, true otherwise. -/
def isNewPost (acct : Account) (post : Post) : Bool :=
  match acct.lastPostId with
  | none => false
  | some lid => lid ≠ "" && post.id ≠ lid

/-- `checkAccount(account)` (monitor.js): circuit-breaker gate, fetch,
success/failure accounting, new-post decision, duplicate check, delivery
and the `last_post_id` / `last_checked` writes.  Returns the updated
circuit breaker and the trace of external calls. -/
def checkAccount (cb : CircuitBreaker) (acct : Account) (env : MonitorEnv)
    (now : Int) : CircuitBreaker × Effects :=
  let gate := cb.isOpen acct.username now
  if gate.1 then
    -- the skip branch logs `getRemainingResetTime` and `getFailureCount`
    let r := gate.2.getRemainingResetTime acct.username now
    (r.2, Effects.empty)
  else
    match env.fetch acct.username with
    | none =>
        let r := gate.2.recordFailure acct.username now
        (r.2, { Effects.empty with lastCheckedUpdates := [acct.id] })
    | some post =>
        let cb1 := gate.2.recordSuccess acct.username
        if isNewPost acct post then
          if env.hasNotified acct.id post.id then
            (cb1, { Effects.empty with
                      lastPostIdUpdates := [(acct.id, post.id)] })
          else if env.settingsCount acct.id > 0 then
            (cb1, { Effects.empty with
                      deliveries := [(acct.id, post.id)]
                      historyAdds := [(acct.id, post.id)]
                      lastPostIdUpdates := [(acct.id, post.id)] })
          else
            (cb1, { Effects.empty with
                      lastPostIdUpdates := [(acct.id, post.id)] })
        else
          (cb1, { Effects.empty with lastCheckedUpdates := [acct.id] })

/-- `isWithinActiveHours()` (monitor.js): true when either bound is
unconfigured; otherwise the overnight branch `start > end` accepts
`hour >= start || hour < end` and the normal branch accepts
`hour >= start && hour < end`. -/
def isWithinActiveHours (startHour endHour : Option Int) (hour : Int) :
    Bool :=
  match startHour, endHour with
  | some s, some e =>
      if s > e then hour ≥ s || hour < e else hour ≥ s && hour < e
  | _, _ => true

/-- `checkAllAccounts()` (monitor.js): outside active hours the cycle
returns before touching any account; with no active accounts it returns
before the cleanup; otherwise each account is checked and
`cleanupOldHistory` runs once.  The bounded-concurrency pool is modelled
as a sequential fold over the account list. -/
def checkAllAccounts (startHour endHour : Option Int) (hour : Int)
    (cb : CircuitBreaker) (accounts : List Account) (env : MonitorEnv)
    (now : Int) : CircuitBreaker × Effects :=
  if ¬ isWithinActiveHours startHour endHour hour then (cb, Effects.empty)
  else if accounts.isEmpty then (cb, Effects.empty)
  else
    let r := accounts.foldl
      (fun acc a =>
        let s := checkAccount acc.1 a env now
        (s.1, acc.2.append s.2))
      (cb, Effects.empty)
    (r.1, { r.2 with cleanups := r.2.cleanups + 1 })

/-- The circuit-breaker effect of `getStatus()` (monitor.js): the status
object is built from `circuitBreaker.getAllStatuses()` and one
`circuitBreaker.getState(username)` per active account, threading any
state transitions those calls make; everything else `getStatus` reads is
pure. -/
def getStatusCB (cb : CircuitBreaker) (accounts : List Account)
    (now : Int) : CircuitBreaker :=
  accounts.foldl (fun c a => (c.getState a.username now).2)
    (cb.getAllStatuses now).2

/-- The static strategy preference order of `fetchRecentPosts`
(src/services/instagram.js): Direct API, then Web Scrape, then
RSS Bridge. -/
def staticStrategyNames : List String :=
  ["Direct API", "Web Scrape", "RSS Bridge"]

/-- The attempt-order computation at the top of `fetchRecentPosts`: when a
remembered last-successful method is found among the strategies it is
moved to the front and the rest keep their order
(`[lastMethodStrategy, ...strategies.filter(s => s.name !== lastMethod)]`). -/
def orderStrategies (lastMethod : Option String) : List String :=
  match lastMethod with
  | none => staticStrategyNames
  | some m =>
      match staticStrategyNames.find? (fun s => s = m) with
      | some s => s :: staticStrategyNames.filter (fun s0 => s0 ≠ m)
      | none => staticStrategyNames

/-- The pooled posts of the successful strategies, in attempt order
(`allPosts.push(...posts)` inside the strategy loop). -/
def pooledPosts (results : String → List Post) (lastMethod : Option String) :
    List Post :=
  (orderStrategies lastMethod).foldl (fun acc s => acc ++ results s) []

/-- `new Map(allPosts.map(post => [post.id, post]))`: first-occurrence key
order, last-written value per key; `.values()` lists the values. -/
def dedupeById (posts : List Post) : List Post :=
  (posts.foldl (fun m p => alSet m p.id p) []).map Prod.snd

/-- Stable descending insertion by `publishedAt`: the new post goes after
every already-placed post with a greater-or-equal timestamp, which is
exactly where a stable sort under the comparator
`(a, b) => b.publishedAt - a.publishedAt` places it. -/
def insertByPublishedDesc (p : Post) : List Post → List Post
  | [] => [p]
  | q :: qs =>
      if q.publishedAt ≥ p.publishedAt then q :: insertByPublishedDesc p qs
      else p :: q :: qs

/-- `.sort((a, b) => b.publishedAt - a.publishedAt)`: a stable sort into
descending `publishedAt` order. -/
def sortByPublishedDesc (l : List Post) : List Post :=
  l.foldl (fun acc p => insertByPublishedDesc p acc) []

/-- The merge step of `fetchRecentPosts` (instagram.js lines 393-396):
deduplicate the pooled posts by id, then sort by timestamp descending. -/
def mergePosts (allPosts : List Post) : List Post :=
  sortByPublishedDesc (dedupeById allPosts)

/-- `fetchRecentPosts(username)` as a function of the per-strategy results
and the remembered last-successful method: attempt the strategies in
hoisted order, pool the non-empty results, return `[]` when the pool is
empty and the deduplicated, sorted pool otherwise.  (Pooling a strategy's
result only when it is non-empty is the same pool as concatenating all
results, since empty results contribute nothing.) -/
def fetchRecentPosts (results : String → List Post)
    (lastMethod : Option String) : List Post :=
  let allPosts := pooledPosts results lastMethod
  if allPosts.isEmpty then [] else mergePosts allPosts

/-- `retryWithBackoff` (src/utils/helpers.js) with the attempt outcomes
supplied as a function from the attempt index: the loop body `fn()`,
`lastError` tracking, the immediate `throw error` on a non-retryable
error, and the final `throw lastError`.  Returns the result (`.error none`
models the `throw lastError` with `lastError` still undefined, possible
only when `maxAttempts = 0`) together with the number of invocations of
the operation.  The inter-attempt `exponentialBackoff` sleeps do not
affect the result and are not modelled. -/
def retryAux {E A : Type} (fn : Nat → Except E A) (shouldRetry : E → Bool) :
    Nat → Nat → Option E → Except (Option E) A × Nat
  | 0, _, lastError => (.error lastError, 0)
  | remaining + 1, attempt, _ =>
      match fn attempt with
      | .ok a => (.ok a, 1)
      | .error e =>
          if ¬ shouldRetry e then (.error (some e), 1)
          else
            let r := retryAux fn shouldRetry remaining (attempt + 1) (some e)
            (r.1, r.2 + 1)

/-- `retryWithBackoff(fn, maxAttempts, baseDelay, maxDelay, shouldRetry)`;
the delay parameters only shape the sleeps and are dropped. -/
def retryWithBackoff {E A : Type} (fn : Nat → Except E A)
    (maxAttempts : Nat) (shouldRetry : E → Bool) :
    Except (Option E) A × Nat :=
  retryAux fn shouldRetry maxAttempts 0 none

/-- The character class `[A-Za-z0-9_-]` of the post-id regex. -/
def isIdChar (c : Char) : Bool :=
  (Char.ofNat 65 ≤ c && c ≤ Char.ofNat 90) ||
  (Char.ofNat 97 ≤ c && c ≤ Char.ofNat 122) ||
  (Char.ofNat 48 ≤ c && c ≤ Char.ofNat 57) ||
  c = Char.ofNat 95 || c = Char.ofNat 45

/-- One anchored attempt of the regex
`\/(p|reel)\/([A-Za-z0-9_-]+)` at the head of the character list: the
capture is the maximal nonempty run of id characters after `/p/` or
`/reel/`. -/
def matchIdAt (l : List Char) : Option (List Char) :=
  if l.take 3 = ['/', 'p', '/'] then
    if ((l.drop 3).takeWhile isIdChar).isEmpty then none
    else some ((l.drop 3).takeWhile isIdChar)
  else if l.take 6 = ['/', 'r', 'e', 'e', 'l', '/'] then
    if ((l.drop 6).takeWhile isIdChar).isEmpty then none
    else some ((l.drop 6).takeWhile isIdChar)
  else none

/-- The unanchored search `urlOrGuid.match(...)`: try the pattern at each
position from the left, returning the first capture. -/
def findIdCapture : List Char → Option (List Char)
  | [] => none
  | c :: rest =>
      match matchIdAt (c :: rest) with
      | some cap => some cap
      | none => findIdCapture rest

/-- `extractInstagramPostId(urlOrGuid)` (helpers.js): null for a falsy
input (absent or empty string); the second capture group of the first
regex match when one exists; the input itself otherwise. -/
def extractInstagramPostId (input : Option String) : Option String :=
  match input with
  | none => none
  | some s =>
      if s = "" then none
      else
        match findIdCapture s.data with
        | some cap => some (String.mk cap)
        | none => some s

/-! ### Association-list lemmas -/

theorem alGet_alSet_self {α : Type} (m : List (String × α)) (k : String)
    (v : α) : alGet (alSet m k v) k = some v := by
  induction m with
  | nil => simp [alSet, alGet, List.find?]
  | cons p t ih =>
      obtain ⟨k0, v0⟩ := p
      by_cases h : k0 = k
      · simp [alSet, alGet, List.find?, h]
      · simp only [alSet, if_neg h]
        simpa [alGet, List.find?, h] using ih

theorem alGet_alSet_ne {α : Type} (m : List (String × α)) (k k2 : String)
    (v : α) (h : k2 ≠ k) : alGet (alSet m k v) k2 = alGet m k2 := by
  have hk : k ≠ k2 := fun hk => h hk.symm
  induction m with
  | nil => simp [alSet, alGet, List.find?, hk]
  | cons p t ih =>
      obtain ⟨k0, v0⟩ := p
      by_cases h0 : k0 = k
      · subst h0
        simp [alSet, alGet, List.find?, hk]
      · by_cases h2 : k0 = k2
        · subst h2
          simp [alSet, alGet, List.find?, h0]
        · simp only [alSet, if_neg h0]
          simpa [alGet, List.find?, h2] using ih

/-! ### Circuit-breaker claims -/

/-- A concrete breaker with threshold 1: one failure trips it open. -/
def cbTripped : CircuitBreaker :=
  ((CircuitBreaker.init 1 100).recordFailure "a" 5).2

/-- Claim C3 counterexample: after the circuit for key `a` has tripped
open, a further `recordFailure` call still returns true (its incremented
count is again at the threshold), where the claim requires it to return
false for a key whose circuit is already open. -/
theorem recordFailure_alreadyOpen_returns_true :
    cbTripped.stateOf "a" = CState.opened ∧
    (cbTripped.recordFailure "a" 6).1 = true := by
  constructor <;> rfl

/-- Claim C3 (amended): `recordFailure(key)` returns true iff the circuit
was half-open before the call, or the incremented failure count is at
least the threshold — not iff the call caused a transition into the open
state; in particular a key whose circuit is already open gets true again
on every further failure. -/
theorem recordFailure_result_iff (cb : CircuitBreaker) (key : String)
    (now : Int) :
    (cb.recordFailure key now).1 = true ↔
      (cb.stateOf key = CState.halfOpen ∨
        cb.failureThreshold ≤ cb.getFailureCount key + 1) := by
  unfold CircuitBreaker.recordFailure CircuitBreaker.getFailureCount
  by_cases h : cb.stateOf key = CState.halfOpen
  · simp [h]
  · by_cases h2 : cb.failureThreshold ≤ (alGet cb.failures key).getD 0 + 1
    · simp [h, h2]
    · simp [h, h2]

/-- Claim C4 counterexample: with threshold 1 and reset timeout 100, the
circuit for `a` trips at time 5; at time 105 `isOpen` returns false and
moves the state to half-open, and a second `isOpen` poll returns false
again — `isOpen` returns false more than once while the trial is
unresolved, where the claim requires exactly once. -/
theorem isOpen_false_twice :
    ((cbTripped.isOpen "a" 105).1 = false ∧
      (cbTripped.isOpen "a" 105).2.stateOf "a" = CState.halfOpen) ∧
    (((cbTripped.isOpen "a" 105).2.isOpen "a" 106).1 = false) := by
  refine ⟨⟨rfl, rfl⟩, rfl⟩

/-- `isOpen` on a half-open circuit: the state check `state === 'open'`
fails, so the call returns false and leaves the breaker unchanged. -/
theorem isOpen_of_halfOpen (cb : CircuitBreaker) (key : String) (now : Int)
    (h : cb.stateOf key = CState.halfOpen) :
    cb.isOpen key now = (false, cb) := by
  unfold CircuitBreaker.isOpen
  rw [h]
  simp

/-- Claim C4 (amended): once the reset timeout has elapsed after a trip
(with a truthy failure stamp), the next `isOpen` call returns false and
moves the state to half-open — but the trial is not single-use: every
further `isOpen` poll while the state remains half-open also returns
false, leaving the breaker unchanged. -/
theorem isOpen_halfOpen_trial (cb : CircuitBreaker) (key : String)
    (now now2 : Int) (lf : Int)
    (hopen : cb.stateOf key = CState.opened)
    (hlf : alGet cb.lastFailureTime key = some lf) (hnz : lf ≠ 0)
    (helapsed : now - lf ≥ cb.resetTimeoutMs) :
    (cb.isOpen key now).1 = false ∧
    (cb.isOpen key now).2.stateOf key = CState.halfOpen ∧
    (cb.isOpen key now).2.isOpen key now2 = (false, (cb.isOpen key now).2) := by
  have h1 : cb.isOpen key now =
      (false, { cb with state := alSet cb.state key CState.halfOpen }) := by
    unfold CircuitBreaker.isOpen
    rw [hopen, hlf]
    simp [hnz, helapsed]
  have h2 : (cb.isOpen key now).2.stateOf key = CState.halfOpen := by
    rw [h1]
    unfold CircuitBreaker.stateOf
    simp [alGet_alSet_self]
  exact ⟨by rw [h1], h2, isOpen_of_halfOpen _ key now2 h2⟩

/-! ### Monitor claims: first-check suppression, duplicate suppression,
active hours -/

/-- A concrete environment: the fetch always returns post `P1` and the
history and settings answer fixed values. -/
def envFirst : MonitorEnv :=
  { fetch := fun _ =>
      some { id := "P1", url := "u", title := "", description := ""
             publishedAt := 10 }
    hasNotified := fun _ _ => false
    settingsCount := fun _ => 1 }

/-- An account that has never recorded a post id. -/
def acctFresh : Account := { id := 1, username := "a", lastPostId := none }

/-- Claim C1 counterexample: a first-ever check (null `last_post_id`)
with a closed breaker and a non-empty fetch makes no delivery call — but
it also makes no `updateLastPostId` call: `last_post_id` is left null
instead of being advanced to the newest item's id as the claim requires
(only `updateLastChecked` runs). -/
theorem checkAccount_firstCheck_no_lastPostId_update :
    (checkAccount (CircuitBreaker.init 5 100) acctFresh envFirst 0).2 =
      { deliveries := [], historyAdds := [], lastCheckedUpdates := [1]
        lastPostIdUpdates := [], cleanups := 0 } := by
  rfl

/-- Claim C1 (amended): for a source whose `last_post_id` is null, a
check whose breaker gate is closed and whose fetch returns a post makes
zero delivery calls and records no history, updates `last_checked`, and
leaves `last_post_id` untouched (no `updateLastPostId` call at all — the
first-check suppression never advances the marker; seeding it is left to
the registration command). -/
theorem checkAccount_first_check (cb : CircuitBreaker) (acct : Account)
    (env : MonitorEnv) (now : Int) (post : Post)
    (hlast : acct.lastPostId = none)
    (hgate : (cb.isOpen acct.username now).1 = false)
    (hfetch : env.fetch acct.username = some post) :
    (checkAccount cb acct env now).2 =
      { Effects.empty with lastCheckedUpdates := [acct.id] } := by
  unfold checkAccount
  simp only [hgate, Bool.false_eq_true, if_false, hfetch]
  simp [isNewPost, hlast]

/-- Claim C1 witness: the amended first-check behaviour at the concrete
fresh account. -/
theorem checkAccount_first_check_witness :
    (checkAccount (CircuitBreaker.init 5 100) acctFresh envFirst 3).2 =
      { Effects.empty with lastCheckedUpdates := [1] } :=
  checkAccount_first_check (CircuitBreaker.init 5 100) acctFresh envFirst 3
    { id := "P1", url := "u", title := "", description := ""
      publishedAt := 10 } rfl rfl rfl

/-- Claim C6: for a source with a truthy stored `last_post_id`, when the
fetched newest post has a different id and the history says the post was
already notified, the check sends no notification and records no new
history entry, but still calls `updateLastPostId` with the new id. -/
theorem checkAccount_duplicate_suppression (cb : CircuitBreaker)
    (acct : Account) (env : MonitorEnv) (now : Int) (post : Post)
    (lid : String) (hlast : acct.lastPostId = some lid) (hne : lid ≠ "")
    (hdiff : post.id ≠ lid)
    (hgate : (cb.isOpen acct.username now).1 = false)
    (hfetch : env.fetch acct.username = some post)
    (hdup : env.hasNotified acct.id post.id = true) :
    (checkAccount cb acct env now).2 =
      { Effects.empty with lastPostIdUpdates := [(acct.id, post.id)] } := by
  unfold checkAccount
  simp only [hgate, Bool.false_eq_true, if_false, hfetch]
  simp [isNewPost, hlast, hne, hdiff, hdup]

/-- Claim C6 witness: duplicate suppression at a concrete account whose
marker is `OLD`, fetch returns `P1`, and the history already lists `P1`. -/
theorem checkAccount_duplicate_suppression_witness :
    (checkAccount (CircuitBreaker.init 5 100)
        { id := 1, username := "a", lastPostId := some "OLD" }
        { envFirst with hasNotified := fun _ _ => true } 0).2 =
      { Effects.empty with lastPostIdUpdates := [(1, "P1")] } :=
  checkAccount_duplicate_suppression (CircuitBreaker.init 5 100)
    { id := 1, username := "a", lastPostId := some "OLD" }
    { envFirst with hasNotified := fun _ _ => true } 0
    { id := "P1", url := "u", title := "", description := ""
      publishedAt := 10 }
    "OLD" rfl (by decide) (by decide) rfl rfl rfl

/-- Modelled from the claim's words, for comparison only: the active
window in which `start == end` is treated consistently with the
midnight-wrap rule, i.e. for `start ≥ end` the hour is active when
`hour ≥ start ∨ hour < end`. -/
def claimActiveWindow (s e h : Int) : Bool :=
  if s < e then h ≥ s && h < e else h ≥ s || h < e

/-- Every branch of `checkAccount` leaves `cleanupOldHistory` uncalled:
the cleanup belongs to the cycle, not to the per-account routine. -/
theorem checkAccount_cleanups (cb : CircuitBreaker) (acct : Account)
    (env : MonitorEnv) (now : Int) :
    (checkAccount cb acct env now).2.cleanups = 0 := by
  unfold checkAccount
  by_cases hg : (cb.isOpen acct.username now).1 = true
  · simp [hg, Effects.empty]
  · simp only [hg, Bool.false_eq_true, if_false]
    cases hf : env.fetch acct.username with
    | none => simp [Effects.empty]
    | some post =>
        by_cases hn : isNewPost acct post = true
        · by_cases hd : env.hasNotified acct.id post.id = true
          · simp [hn, hd, Effects.empty]
          · by_cases hs : env.settingsCount acct.id > 0
            · simp [hn, hd, hs, Effects.empty]
            · simp [hn, hd, hs, Effects.empty]
        · simp [hn, Effects.empty]

/-- Folding the per-account check over a list never touches the cleanup
counter. -/
theorem foldCheck_cleanups (env : MonitorEnv) (now : Int) :
    ∀ (accounts : List Account) (cb : CircuitBreaker) (eff : Effects),
    ((accounts.foldl
        (fun acc a =>
          let s := checkAccount acc.1 a env now
          (s.1, acc.2.append s.2))
        (cb, eff)).2).cleanups = eff.cleanups := by
  intro accounts
  induction accounts with
  | nil => intro cb eff; rfl
  | cons a t ih =>
      intro cb eff
      simp only [List.foldl]
      rw [ih]
      simp [Effects.append, checkAccount_cleanups]

/-- Claim C5 counterexample: with `start = end = 5` the source's normal
branch yields an empty window, so the hour 5 cycle is skipped (no breaker
change, no effects), although the claim's wrap-consistent reading makes
every hour active. -/
theorem activeHours_startEqEnd_skips :
    isWithinActiveHours (some 5) (some 5) 5 = false ∧
    claimActiveWindow 5 5 5 = true ∧
    checkAllAccounts (some 5) (some 5) 5 (CircuitBreaker.init 5 100)
        [acctFresh] envFirst 0 =
      (CircuitBreaker.init 5 100, Effects.empty) := by
  refine ⟨by decide, by decide, ?_⟩
  rfl

/-- Claim C5 (amended): when both hours are configured, a cycle outside
the window leaves the breaker and every effect untouched, and a cycle
inside the window with a non-empty account list runs (the per-cycle
cleanup fires exactly once); the window is `start ≤ h < end` for
`start < end`, wraps midnight (`h ≥ start ∨ h < end`) for `start > end`,
and is empty for `start == end` (that case falls into the normal branch,
so every cycle is skipped — not the wrap-consistent reading). -/
theorem activeHours_gate (s e h : Int) (cb : CircuitBreaker)
    (accounts : List Account) (env : MonitorEnv) (now : Int) :
    (isWithinActiveHours (some s) (some e) h = false →
      checkAllAccounts (some s) (some e) h cb accounts env now =
        (cb, Effects.empty)) ∧
    (isWithinActiveHours (some s) (some e) h = true → accounts ≠ [] →
      (checkAllAccounts (some s) (some e) h cb accounts env now).2.cleanups
        = 1) ∧
    (s < e →
      (isWithinActiveHours (some s) (some e) h = true ↔ s ≤ h ∧ h < e)) ∧
    (e < s →
      (isWithinActiveHours (some s) (some e) h = true ↔ s ≤ h ∨ h < e)) ∧
    (s = e → isWithinActiveHours (some s) (some e) h = false) := by
  refine ⟨?_, ?_, ?_, ?_, ?_⟩
  · intro hout
    unfold checkAllAccounts
    simp [hout]
  · intro hin hne
    unfold checkAllAccounts
    rw [hin]
    simp only [not_true_eq_false, if_false, List.isEmpty_eq_true]
    rw [if_neg hne]
    simp [foldCheck_cleanups, Effects.empty]
  · intro hlt
    have hng : ¬ s > e := by omega
    simp [isWithinActiveHours, hng]
  · intro hgt
    have hg : s > e := hgt
    simp [isWithinActiveHours, hg]
  · intro heq
    subst heq
    have hng : ¬ s > s := by omega
    simp [isWithinActiveHours, hng]

/-- Claim C5 witness: the gate at concrete configurations — hour 10 is
outside the overnight window 21-5 and skips the cycle; hour 23 is inside
it. -/
theorem activeHours_gate_witness :
    checkAllAccounts (some 21) (some 5) 10 (CircuitBreaker.init 5 100)
        [acctFresh] envFirst 0 =
      (CircuitBreaker.init 5 100, Effects.empty) ∧
    (isWithinActiveHours (some 21) (some 5) 23 = true ↔
      (21 : Int) ≤ 23 ∨ (23 : Int) < 5) :=
  ⟨(activeHours_gate 21 5 10 (CircuitBreaker.init 5 100) [acctFresh]
      envFirst 0).1 (by decide),
    (activeHours_gate 21 5 23 (CircuitBreaker.init 5 100) [acctFresh]
      envFirst 0).2.2.2.1 (by decide)⟩

/-- Claim C4 witness: the amended half-open behaviour at the concrete
tripped breaker. -/
theorem isOpen_halfOpen_trial_witness :
    (cbTripped.isOpen "a" 105).1 = false ∧
    (cbTripped.isOpen "a" 105).2.stateOf "a" = CState.halfOpen ∧
    (cbTripped.isOpen "a" 105).2.isOpen "a" 106 =
      (false, (cbTripped.isOpen "a" 105).2) :=
  isOpen_halfOpen_trial cbTripped "a" 105 106 5 rfl rfl (by decide)
    (by decide)

/-! ### Fetch strategy chain: hoisting -/

/-- Claim C8: when the remembered last-successful method is one of the
strategies, the attempt order of `fetchRecentPosts` puts it first,
followed by the other strategies filtered out of the original list — a
sublist of the static order, so the remainder keeps the original
preference order. -/
theorem orderStrategies_hoist (m : String) (hm : m ∈ staticStrategyNames) :
    orderStrategies (some m) =
      m :: staticStrategyNames.filter (fun s => s ≠ m) ∧
    (staticStrategyNames.filter (fun s => s ≠ m)).Sublist
      staticStrategyNames := by
  refine ⟨?_, List.filter_sublist _⟩
  simp only [staticStrategyNames, List.mem_cons, List.not_mem_nil,
    or_false] at hm
  rcases hm with h | h | h
  all_goals subst h
  all_goals rfl

/-- Claim C8 witness: hoisting at the concrete remembered method
`RSS Bridge`, which is last in the static order. -/
theorem orderStrategies_hoist_witness :
    orderStrategies (some "RSS Bridge") =
      "RSS Bridge" ::
        staticStrategyNames.filter (fun s => s ≠ "RSS Bridge") ∧
    (staticStrategyNames.filter (fun s => s ≠ "RSS Bridge")).Sublist
      staticStrategyNames :=
  orderStrategies_hoist "RSS Bridge" (by decide)

/-! ### Backoff executor -/

/-- `retryAux` never calls the operation more often than the remaining
attempt budget. -/
theorem retryAux_count_le {E A : Type} (fn : Nat → Except E A)
    (sr : E → Bool) :
    ∀ (remaining attempt : Nat) (le : Option E),
    (retryAux fn sr remaining attempt le).2 ≤ remaining := by
  intro remaining
  induction remaining with
  | zero => intro attempt le; simp [retryAux]
  | succ r ih =>
      intro attempt le
      unfold retryAux
      cases fn attempt with
      | ok a => simp
      | error e =>
          by_cases hr : sr e = true
          · simpa [hr] using Nat.succ_le_succ (ih (attempt + 1) (some e))
          · simp [hr]

/-- `retryAux` stops at the first non-retryable error: when attempt
`attempt + k` fails non-retryably and every earlier attempt fails
retryably, the result is that error after exactly `k + 1` calls. -/
theorem retryAux_nonretryable {E A : Type} (fn : Nat → Except E A)
    (sr : E → Bool) :
    ∀ (k remaining attempt : Nat) (le : Option E) (e : E),
    k < remaining → fn (attempt + k) = Except.error e → sr e = false →
    (∀ j, j < k → ∃ ej, fn (attempt + j) = Except.error ej ∧ sr ej = true) →
    retryAux fn sr remaining attempt le = (Except.error (some e), k + 1) := by
  intro k
  induction k with
  | zero =>
      intro remaining attempt le e hk hf hs _
      obtain ⟨r, rfl⟩ : ∃ r, remaining = r + 1 :=
        ⟨remaining - 1, by omega⟩
      unfold retryAux
      rw [Nat.add_zero] at hf
      rw [hf]
      simp [hs]
  | succ k ih =>
      intro remaining attempt le e hk hf hs hprev
      obtain ⟨r, rfl⟩ : ∃ r, remaining = r + 1 :=
        ⟨remaining - 1, by omega⟩
      obtain ⟨e0, he0, hsr0⟩ := hprev 0 (Nat.succ_pos k)
      rw [Nat.add_zero] at he0
      unfold retryAux
      rw [he0]
      have hrec :
          retryAux fn sr r (attempt + 1) (some e0) =
            (Except.error (some e), k + 1) := by
        refine ih r (attempt + 1) (some e0) e (by omega) ?_ hs ?_
        · have : attempt + 1 + k = attempt + (k + 1) := by omega
          rw [this, hf]
        · intro j hj
          obtain ⟨ej, hej, hsrj⟩ := hprev (j + 1) (by omega)
          refine ⟨ej, ?_, hsrj⟩
          have : attempt + 1 + j = attempt + (j + 1) := by omega
          rw [this, hej]
      simp [hsr0, hrec]

/-- When every attempt in the budget fails retryably, `retryAux` returns
the error of the last attempt after consuming the whole budget. -/
theorem retryAux_exhausted {E A : Type} (fn : Nat → Except E A)
    (sr : E → Bool) :
    ∀ (remaining attempt : Nat) (le : Option E) (e : E),
    1 ≤ remaining →
    (∀ j, j < remaining → ∃ ej, fn (attempt + j) = Except.error ej ∧
      sr ej = true) →
    fn (attempt + (remaining - 1)) = Except.error e →
    retryAux fn sr remaining attempt le =
      (Except.error (some e), remaining) := by
  intro remaining
  induction remaining with
  | zero => intro attempt le e h; omega
  | succ r ih =>
      intro attempt le e _ hall hlast
      obtain ⟨e0, he0, hsr0⟩ := hall 0 (Nat.succ_pos r)
      rw [Nat.add_zero] at he0
      unfold retryAux
      rw [he0]
      cases Nat.eq_zero_or_pos r with
      | inl hr0 =>
          subst hr0
          rw [Nat.add_zero] at hlast
          have : e0 = e := by
            rw [he0] at hlast
            exact (Except.error.injEq _ _).mp hlast.symm |>.symm ▸ rfl
          subst this
          simp [hsr0, retryAux]
      | inr hrpos =>
          have hrec :
              retryAux fn sr r (attempt + 1) (some e0) =
                (Except.error (some e), r) := by
            refine ih (attempt + 1) (some e0) e hrpos ?_ ?_
            · intro j hj
              obtain ⟨ej, hej, hsrj⟩ := hall (j + 1) (by omega)
              refine ⟨ej, ?_, hsrj⟩
              have : attempt + 1 + j = attempt + (j + 1) := by omega
              rw [this, hej]
            · have : attempt + 1 + (r - 1) = attempt + (r + 1 - 1) := by
                omega
              rw [this, hlast]
          simp [hsr0, hrec]

/-- Claim C9: `retryWithBackoff` calls the operation at most
`maxAttempts` times; an attempt failing with a non-retryable error (all
earlier attempts failing retryably) ends the run immediately with that
error; and when every attempt in the budget fails retryably the run ends
with the last observed error after exactly `maxAttempts` calls. -/
theorem retryWithBackoff_contract {E A : Type} (fn : Nat → Except E A)
    (maxAttempts : Nat) (sr : E → Bool) :
    (retryWithBackoff fn maxAttempts sr).2 ≤ maxAttempts ∧
    (∀ k e, k < maxAttempts → fn k = Except.error e → sr e = false →
      (∀ j, j < k → ∃ ej, fn j = Except.error ej ∧ sr ej = true) →
      retryWithBackoff fn maxAttempts sr = (Except.error (some e), k + 1)) ∧
    (∀ e, 1 ≤ maxAttempts →
      (∀ j, j < maxAttempts → ∃ ej, fn j = Except.error ej ∧ sr ej = true) →
      fn (maxAttempts - 1) = Except.error e →
      retryWithBackoff fn maxAttempts sr =
        (Except.error (some e), maxAttempts)) := by
  refine ⟨retryAux_count_le fn sr maxAttempts 0 none, ?_, ?_⟩
  · intro k e hk hf hs hprev
    have := retryAux_nonretryable fn sr k maxAttempts 0 none e hk
      (by simpa using hf) hs (by simpa using hprev)
    simpa [retryWithBackoff] using this
  · intro e h1 hall hlast
    have := retryAux_exhausted fn sr maxAttempts 0 none e h1
      (by simpa using hall) (by simpa using hlast)
    simpa [retryWithBackoff] using this

/-- Claim C9 witness: the contract at a concrete operation that fails
with error `k` at attempt `k`, retryable only below 1 — the run stops at
attempt 1 with error 1 after two calls — and at an always-retryable
failing operation, which exhausts its three attempts ending with the last
error. -/
theorem retryWithBackoff_contract_witness :
    retryWithBackoff (fun k => (Except.error k : Except Nat Nat)) 3
        (fun e => e < 1) = (Except.error (some 1), 2) ∧
    retryWithBackoff (fun k => (Except.error k : Except Nat Nat)) 3
        (fun _ => true) = (Except.error (some 2), 3) :=
  ⟨(retryWithBackoff_contract (fun k => (Except.error k : Except Nat Nat)) 3
      (fun e => e < 1)).2.1 1 1 (by decide) rfl (by decide)
      (fun j hj => ⟨j, rfl, by simpa using hj⟩),
    (retryWithBackoff_contract (fun k => (Except.error k : Except Nat Nat)) 3
      (fun _ => true)).2.2 2 (by decide)
      (fun j hj => ⟨j, rfl, rfl⟩) rfl⟩

/-! ### Fetch strategy chain: merge, deduplicate, sort -/

theorem mem_alSet_keys {α : Type} (m : List (String × α)) (k k0 : String)
    (v : α) :
    k0 ∈ (alSet m k v).map Prod.fst ↔ k0 ∈ m.map Prod.fst ∨ k0 = k := by
  induction m with
  | nil => simp [alSet]
  | cons p t ih =>
      obtain ⟨k1, v1⟩ := p
      by_cases h : k1 = k
      · subst h
        simp [alSet]
        tauto
      · simp only [alSet, if_neg h, List.map_cons, List.mem_cons, ih]
        tauto

theorem alSet_keys_nodup {α : Type} (m : List (String × α)) (k : String)
    (v : α) (h : (m.map Prod.fst).Nodup) :
    ((alSet m k v).map Prod.fst).Nodup := by
  induction m with
  | nil => simp [alSet]
  | cons p t ih =>
      obtain ⟨k1, v1⟩ := p
      simp only [List.map_cons, List.nodup_cons] at h
      by_cases hk : k1 = k
      · subst hk
        simpa [alSet] using h
      · simp only [alSet, if_neg hk, List.map_cons, List.nodup_cons]
        exact ⟨fun hmem => by
          rcases (mem_alSet_keys t k k1 v).mp hmem with h1 | h1
          · exact h.1 h1
          · exact hk h1, ih h.2⟩

theorem mem_alSet_pairs {α : Type} (m : List (String × α)) (k : String)
    (v : α) (q : String × α) (hq : q ∈ alSet m k v) :
    q ∈ m ∨ q = (k, v) := by
  induction m with
  | nil => simpa [alSet] using hq
  | cons p t ih =>
      obtain ⟨k1, v1⟩ := p
      by_cases hk : k1 = k
      · subst hk
        rcases (by simpa [alSet] using hq : q = (k1, v) ∨ q ∈ t) with h | h
        · exact Or.inr (by simp [h])
        · exact Or.inl (List.mem_cons_of_mem _ h)
      · rcases (by simpa [alSet, if_neg hk] using hq :
            q = (k1, v1) ∨ q ∈ alSet t k v) with h | h
        · exact Or.inl (by simp [h])
        · rcases ih h with h1 | h1
          · exact Or.inl (List.mem_cons_of_mem _ h1)
          · exact Or.inr h1

/-- The association map built while deduplicating: pairs each post id
with a post carrying that id, and its keys never repeat. -/
def GoodMap (m : List (String × Post)) : Prop :=
  (m.map Prod.fst).Nodup ∧ ∀ q ∈ m, q.1 = q.2.id

theorem goodMap_alSet (m : List (String × Post)) (p : Post)
    (h : GoodMap m) : GoodMap (alSet m p.id p) := by
  refine ⟨alSet_keys_nodup m p.id p h.1, ?_⟩
  intro q hq
  rcases mem_alSet_pairs m p.id p q hq with h1 | h1
  · exact h.2 q h1
  · simp [h1]

theorem goodMap_fold (posts : List Post) :
    ∀ m, GoodMap m →
      GoodMap (posts.foldl (fun m0 p => alSet m0 p.id p) m) := by
  induction posts with
  | nil => intro m h; simpa using h
  | cons p t ih =>
      intro m h
      simpa using ih (alSet m p.id p) (goodMap_alSet m p h)

theorem keys_fold_mem (posts : List Post) :
    ∀ (m : List (String × Post)) (i : String),
      (i ∈ (posts.foldl (fun m0 p => alSet m0 p.id p) m).map Prod.fst ↔
        i ∈ m.map Prod.fst ∨ i ∈ posts.map Post.id) := by
  induction posts with
  | nil => intro m i; simp
  | cons p t ih =>
      intro m i
      simp only [List.foldl_cons, List.map_cons, List.mem_cons]
      rw [ih (alSet m p.id p) i, mem_alSet_keys]
      tauto

theorem goodMap_values_ids (m : List (String × Post)) (h : GoodMap m) :
    (m.map Prod.snd).map Post.id = m.map Prod.fst := by
  induction m with
  | nil => rfl
  | cons q t ih =>
      have hq := h.2 q (List.mem_cons_self q t)
      simp only [List.map_cons]
      rw [ih ⟨(List.nodup_cons.mp h.1).2,
        fun r hr => h.2 r (List.mem_cons_of_mem q hr)⟩]
      rw [← hq]

theorem dedupeById_ids_nodup (posts : List Post) :
    ((dedupeById posts).map Post.id).Nodup := by
  have hg := goodMap_fold posts [] ⟨List.nodup_nil, by simp⟩
  unfold dedupeById
  rw [goodMap_values_ids _ hg]
  exact hg.1

theorem dedupeById_ids_mem (posts : List Post) (i : String) :
    i ∈ (dedupeById posts).map Post.id ↔ i ∈ posts.map Post.id := by
  have hg := goodMap_fold posts [] ⟨List.nodup_nil, by simp⟩
  unfold dedupeById
  rw [goodMap_values_ids _ hg, keys_fold_mem posts [] i]
  simp

theorem insertByPublishedDesc_perm (p : Post) (l : List Post) :
    List.Perm (insertByPublishedDesc p l) (p :: l) := by
  induction l with
  | nil => rfl
  | cons q t ih =>
      unfold insertByPublishedDesc
      by_cases h : q.publishedAt ≥ p.publishedAt
      · simp only [h, if_true]
        exact (ih.cons q).trans (List.Perm.swap p q t)
      · simp [h]

theorem insertByPublishedDesc_sorted (p : Post) (l : List Post)
    (h : List.Sorted (fun a b => b.publishedAt ≤ a.publishedAt) l) :
    List.Sorted (fun a b => b.publishedAt ≤ a.publishedAt)
      (insertByPublishedDesc p l) := by
  induction l with
  | nil => simp [insertByPublishedDesc]
  | cons q t ih =>
      rw [List.sorted_cons] at h
      unfold insertByPublishedDesc
      by_cases hc : q.publishedAt ≥ p.publishedAt
      · simp only [hc, if_true]
        rw [List.sorted_cons]
        refine ⟨?_, ih h.2⟩
        intro x hx
        rcases List.mem_cons.mp
            ((insertByPublishedDesc_perm p t).mem_iff.mp hx) with h1 | h1
        · subst h1; exact hc
        · exact h.1 x h1
      · simp only [hc, if_false]
        rw [List.sorted_cons]
        refine ⟨?_, List.sorted_cons.mpr h⟩
        intro x hx
        rcases List.mem_cons.mp hx with h1 | h1
        · subst h1; omega
        · have := h.1 x h1
          omega

theorem sortByPublishedDesc_perm (l : List Post) :
    List.Perm (sortByPublishedDesc l) l := by
  have main : ∀ (l acc : List Post),
      List.Perm (l.foldl (fun a p => insertByPublishedDesc p a) acc)
        (acc ++ l) := by
    intro l
    induction l with
    | nil => intro acc; simp
    | cons p t ih =>
        intro acc
        simp only [List.foldl_cons]
        refine (ih (insertByPublishedDesc p acc)).trans ?_
        refine (((insertByPublishedDesc_perm p acc).append_right t).trans ?_)
        exact List.perm_middle.symm
  simpa using main l []

theorem sortByPublishedDesc_sorted (l : List Post) :
    List.Sorted (fun a b => b.publishedAt ≤ a.publishedAt)
      (sortByPublishedDesc l) := by
  have main : ∀ (l acc : List Post),
      List.Sorted (fun a b => b.publishedAt ≤ a.publishedAt) acc →
      List.Sorted (fun a b => b.publishedAt ≤ a.publishedAt)
        (l.foldl (fun a p => insertByPublishedDesc p a) acc) := by
    intro l
    induction l with
    | nil => intro acc h; simpa using h
    | cons p t ih =>
        intro acc h
        simpa using ih (insertByPublishedDesc p acc)
          (insertByPublishedDesc_sorted p acc h)
  exact main l [] (by simp)

/-- Claim C7: the merged result of `fetchRecentPosts` has exactly one
entry per distinct pooled item id (items sharing an id are collapsed to
one copy: the id multiset is duplicate-free and covers exactly the pooled
ids) and is sorted by `publishedAt` descending. -/
theorem fetchRecentPosts_dedup_sorted (results : String → List Post)
    (lastMethod : Option String) :
    ((fetchRecentPosts results lastMethod).map Post.id).Nodup ∧
    (∀ i, i ∈ (fetchRecentPosts results lastMethod).map Post.id ↔
      i ∈ (pooledPosts results lastMethod).map Post.id) ∧
    List.Sorted (fun a b => b.publishedAt ≤ a.publishedAt)
      (fetchRecentPosts results lastMethod) := by
  unfold fetchRecentPosts
  by_cases h : (pooledPosts results lastMethod).isEmpty
  · rw [List.isEmpty_iff] at h
    simp [h]
  · simp only [h, if_false, Bool.false_eq_true]
    have hperm :
        List.Perm (mergePosts (pooledPosts results lastMethod))
          (dedupeById (pooledPosts results lastMethod)) := by
      unfold mergePosts
      exact sortByPublishedDesc_perm _
    have hids := hperm.map Post.id
    refine ⟨?_, ?_, ?_⟩
    · exact (hids.nodup_iff).mpr (dedupeById_ids_nodup _)
    · intro i
      rw [hids.mem_iff, dedupeById_ids_mem]
    · exact sortByPublishedDesc_sorted _

/-! ### Post-id extraction -/

/-- The character list starts with `/p/` or `/reel/` followed by at least
one id character — exactly the shapes the post-id regex can match at this
position. -/
def StartsIdSeg (l : List Char) : Prop :=
  ∃ c rest,
    (l = '/' :: 'p' :: '/' :: c :: rest ∨
      l = '/' :: 'r' :: 'e' :: 'e' :: 'l' :: '/' :: c :: rest) ∧
    isIdChar c = true

/-- Some position of the character list starts an id segment: the
declarative counterpart of the unanchored regex finding a match. -/
def HasIdSegment (l : List Char) : Prop :=
  ∃ pre suf, l = pre ++ suf ∧ StartsIdSeg suf

theorem takeWhile_append_dropWhile_eq {α : Type} (p : α → Bool) :
    ∀ l : List α, l.takeWhile p ++ l.dropWhile p = l := by
  intro l
  induction l with
  | nil => rfl
  | cons a t ih =>
      by_cases h : p a
      · simp [List.takeWhile, List.dropWhile, h, ih]
      · simp [List.takeWhile, List.dropWhile, h]

theorem matchIdAt_some_of_starts (l : List Char) (h : StartsIdSeg l) :
    ∃ cap, matchIdAt l = some cap := by
  obtain ⟨c, rest, hshape, hc⟩ := h
  rcases hshape with h1 | h1
  · subst h1
    refine ⟨c :: (rest.takeWhile isIdChar), ?_⟩
    unfold matchIdAt
    rw [if_pos
      (show ('/' :: 'p' :: '/' :: c :: rest).take 3 = ['/', 'p', '/'] from
        rfl)]
    have hd : ('/' :: 'p' :: '/' :: c :: rest).drop 3 = c :: rest := rfl
    rw [hd]
    simp [List.takeWhile, hc]
  · subst h1
    refine ⟨c :: (rest.takeWhile isIdChar), ?_⟩
    unfold matchIdAt
    have h3 : ('/' :: 'r' :: 'e' :: 'e' :: 'l' :: '/' :: c :: rest).take 3 =
        ['/', 'r', 'e'] := rfl
    rw [if_neg (by rw [h3]; decide)]
    rw [if_pos
      (show ('/' :: 'r' :: 'e' :: 'e' :: 'l' :: '/' :: c :: rest).take 6 =
          ['/', 'r', 'e', 'e', 'l', '/'] from rfl)]
    have hd : ('/' :: 'r' :: 'e' :: 'e' :: 'l' :: '/' :: c :: rest).drop 6 =
        c :: rest := rfl
    rw [hd]
    simp [List.takeWhile, hc]

theorem matchIdAt_decomp (l : List Char) (cap : List Char)
    (h : matchIdAt l = some cap) :
    cap ≠ [] ∧ (∀ c ∈ cap, isIdChar c = true) ∧
    ∃ post,
      (l = '/' :: 'p' :: '/' :: (cap ++ post) ∨
        l = '/' :: 'r' :: 'e' :: 'e' :: 'l' :: '/' :: (cap ++ post)) := by
  unfold matchIdAt at h
  by_cases h3 : l.take 3 = ['/', 'p', '/']
  · rw [if_pos h3] at h
    by_cases he : ((l.drop 3).takeWhile isIdChar).isEmpty
    · rw [if_pos he] at h; exact absurd h (by simp)
    · rw [if_neg he] at h
      obtain rfl : (l.drop 3).takeWhile isIdChar = cap := by
        simpa using h
      refine ⟨by simpa using he, fun c hc => List.mem_takeWhile_imp hc, ?_⟩
      refine ⟨(l.drop 3).dropWhile isIdChar, Or.inl ?_⟩
      rw [takeWhile_append_dropWhile_eq]
      have hl := (List.take_append_drop 3 l).symm
      rw [h3] at hl
      exact hl
  · rw [if_neg h3] at h
    by_cases h6 : l.take 6 = ['/', 'r', 'e', 'e', 'l', '/']
    · rw [if_pos h6] at h
      by_cases he : ((l.drop 6).takeWhile isIdChar).isEmpty
      · rw [if_pos he] at h; exact absurd h (by simp)
      · rw [if_neg he] at h
        obtain rfl : (l.drop 6).takeWhile isIdChar = cap := by
          simpa using h
        refine ⟨by simpa using he, fun c hc => List.mem_takeWhile_imp hc, ?_⟩
        refine ⟨(l.drop 6).dropWhile isIdChar, Or.inr ?_⟩
        rw [takeWhile_append_dropWhile_eq]
        have hl := (List.take_append_drop 6 l).symm
        rw [h6] at hl
        exact hl
    · rw [if_neg h6] at h
      exact absurd h (by simp)

theorem matchIdAt_starts_of_some (l : List Char) (cap : List Char)
    (h : matchIdAt l = some cap) : StartsIdSeg l := by
  obtain ⟨hne, hall, post, hshape⟩ := matchIdAt_decomp l cap h
  obtain ⟨c, capt, rfl⟩ : ∃ c t, cap = c :: t := by
    cases cap with
    | nil => exact absurd rfl hne
    | cons c t => exact ⟨c, t, rfl⟩
  rcases hshape with h1 | h1
  · exact ⟨c, capt ++ post, Or.inl (by simpa using h1),
      hall c (List.mem_cons_self c capt)⟩
  · exact ⟨c, capt ++ post, Or.inr (by simpa using h1),
      hall c (List.mem_cons_self c capt)⟩

theorem hasIdSegment_cons (c : Char) (l : List Char) :
    HasIdSegment (c :: l) ↔ StartsIdSeg (c :: l) ∨ HasIdSegment l := by
  constructor
  · rintro ⟨pre, suf, heq, hs⟩
    cases pre with
    | nil => exact Or.inl (by simpa using heq ▸ hs)
    | cons c0 pre0 =>
        right
        refine ⟨pre0, suf, ?_, hs⟩
        simpa using congrArg List.tail heq
  · rintro (hs | ⟨pre, suf, heq, hs⟩)
    · exact ⟨[], c :: l, rfl, hs⟩
    · exact ⟨c :: pre, suf, by simp [heq], hs⟩

theorem findIdCapture_none_iff (l : List Char) :
    findIdCapture l = none ↔ ¬ HasIdSegment l := by
  induction l with
  | nil =>
      simp only [findIdCapture, true_iff]
      rintro ⟨pre, suf, heq, c, rest, hshape, _⟩
      rcases hshape with h1 | h1 <;> simp [h1] at heq
  | cons c rest ih =>
      rw [hasIdSegment_cons]
      unfold findIdCapture
      cases hm : matchIdAt (c :: rest) with
      | some cap =>
          have hstart := matchIdAt_starts_of_some _ cap hm
          constructor
          · intro h; exact absurd h (by simp)
          · intro h; exact absurd hstart (by tauto)
      | none =>
          rw [ih]
          constructor
          · intro hnr
            rintro (hs | hh)
            · obtain ⟨cap, hcap⟩ := matchIdAt_some_of_starts _ hs
              rw [hm] at hcap
              exact absurd hcap (by simp)
            · exact hnr hh
          · intro hno hh
            exact hno (Or.inr hh)

theorem findIdCapture_decomp (l : List Char) (cap : List Char)
    (h : findIdCapture l = some cap) :
    cap ≠ [] ∧ (∀ c ∈ cap, isIdChar c = true) ∧
    ∃ pre post,
      (l = pre ++ '/' :: 'p' :: '/' :: (cap ++ post) ∨
        l = pre ++ '/' :: 'r' :: 'e' :: 'e' :: 'l' :: '/' :: (cap ++ post)) := by
  induction l with
  | nil => exact absurd h (by simp [findIdCapture])
  | cons c rest ih =>
      unfold findIdCapture at h
      cases hm : matchIdAt (c :: rest) with
      | some cap0 =>
          rw [hm] at h
          obtain rfl : cap0 = cap := by simpa using h
          obtain ⟨hne, hall, post, hshape⟩ := matchIdAt_decomp _ cap0 hm
          exact ⟨hne, hall, [], post, by simpa using hshape⟩
      | none =>
          rw [hm] at h
          obtain ⟨hne, hall, pre, post, hshape⟩ := ih h
          refine ⟨hne, hall, c :: pre, post, ?_⟩
          rcases hshape with h1 | h1
          · exact Or.inl (by simp [h1])
          · exact Or.inr (by simp [h1])

/-- Claim C10: `extractInstagramPostId` returns null exactly for absent
or empty input; a non-empty input with no `/p/` or `/reel/` id segment
comes back unchanged (the whole URL or GUID is used as the item id); and
when such a segment exists the result is a captured non-empty run of id
characters sitting right after a `/p/` or `/reel/` occurrence in the
input. -/
theorem extractInstagramPostId_spec :
    extractInstagramPostId none = none ∧
    extractInstagramPostId (some "") = none ∧
    (∀ s : String, extractInstagramPostId (some s) = none → s = "") ∧
    (∀ s : String, s ≠ "" → ¬ HasIdSegment s.data →
      extractInstagramPostId (some s) = some s) ∧
    (∀ s : String, s ≠ "" → HasIdSegment s.data →
      ∃ cap, extractInstagramPostId (some s) = some (String.mk cap) ∧
        cap ≠ [] ∧ (∀ c ∈ cap, isIdChar c = true) ∧
        ∃ pre post,
          (s.data = pre ++ '/' :: 'p' :: '/' :: (cap ++ post) ∨
            s.data =
              pre ++ '/' :: 'r' :: 'e' :: 'e' :: 'l' :: '/' ::
                (cap ++ post))) := by
  refine ⟨rfl, rfl, ?_, ?_, ?_⟩
  · intro s h
    simp only [extractInstagramPostId] at h
    by_cases hs : s = ""
    · exact hs
    · rw [if_neg hs] at h
      cases hf : findIdCapture s.data with
      | some cap => rw [hf] at h; exact absurd h (by simp)
      | none => rw [hf] at h; exact absurd h (by simp)
  · intro s hs hno
    simp only [extractInstagramPostId]
    rw [if_neg hs, (findIdCapture_none_iff s.data).mpr hno]
  · intro s hs hhas
    cases hf : findIdCapture s.data with
    | none => exact absurd hhas ((findIdCapture_none_iff s.data).mp hf)
    | some cap =>
        obtain ⟨hne, hall, pre, post, hshape⟩ :=
          findIdCapture_decomp s.data cap hf
        refine ⟨cap, ?_, hne, hall, pre, post, hshape⟩
        simp only [extractInstagramPostId]
        rw [if_neg hs, hf]

/-- Claim C10 witness: the extractor at concrete inputs — a GUID with no
id segment is returned whole, and a URL containing `/p/XY` yields a
capture. -/
theorem extractInstagramPostId_spec_witness :
    extractInstagramPostId (some "someguid") = some "someguid" ∧
    (∃ cap, extractInstagramPostId (some "a/p/XY") =
        some (String.mk cap) ∧
      cap ≠ [] ∧ (∀ c ∈ cap, isIdChar c = true) ∧
      ∃ pre post,
        ("a/p/XY".data = pre ++ '/' :: 'p' :: '/' :: (cap ++ post) ∨
          "a/p/XY".data =
            pre ++ '/' :: 'r' :: 'e' :: 'e' :: 'l' :: '/' ::
              (cap ++ post))) :=
  ⟨extractInstagramPostId_spec.2.2.2.1 "someguid" (by decide)
      ((findIdCapture_none_iff "someguid".data).mp (by decide)),
    extractInstagramPostId_spec.2.2.2.2 "a/p/XY" (by decide)
      ⟨['a'], ['/', 'p', '/', 'X', 'Y'], by decide,
        ⟨'X', ['Y'], Or.inl (by decide), by decide⟩⟩⟩

/-! ### getStatus frame effect -/

/-- The breaker change a single `isOpen` call can make. -/
def touch (cb : CircuitBreaker) (key : String) (now : Int) :
    CircuitBreaker :=
  (cb.isOpen key now).2

/-- The circuit for `key` is open with a truthy failure stamp whose reset
timeout has elapsed — exactly when `isOpen` moves it to half-open. -/
def CanHalfOpen (cb : CircuitBreaker) (key : String) (now : Int) : Prop :=
  cb.stateOf key = CState.opened ∧
  ∃ lf, alGet cb.lastFailureTime key = some lf ∧ lf ≠ 0 ∧
    now - lf ≥ cb.resetTimeoutMs

theorem touch_eq_of_not_can (cb : CircuitBreaker) (key : String) (now : Int)
    (h : ¬ CanHalfOpen cb key now) : touch cb key now = cb := by
  unfold touch CircuitBreaker.isOpen
  by_cases hs : cb.stateOf key = CState.opened
  · rw [if_pos hs]
    cases hlf : alGet cb.lastFailureTime key with
    | none => rfl
    | some lf =>
        by_cases hc : lf ≠ 0 ∧ now - lf ≥ cb.resetTimeoutMs
        · exact absurd ⟨hs, lf, hlf, hc.1, hc.2⟩ h
        · simp [hc]
  · rw [if_neg hs]

theorem touch_eq_of_can (cb : CircuitBreaker) (key : String) (now : Int)
    (h : CanHalfOpen cb key now) :
    touch cb key now =
      { cb with state := alSet cb.state key CState.halfOpen } := by
  obtain ⟨hs, lf, hlf, hnz, helapsed⟩ := h
  unfold touch CircuitBreaker.isOpen
  rw [if_pos hs, hlf]
  simp [hnz, helapsed]

theorem touch_fields (cb : CircuitBreaker) (key : String) (now : Int) :
    (touch cb key now).failureThreshold = cb.failureThreshold ∧
    (touch cb key now).resetTimeoutMs = cb.resetTimeoutMs ∧
    (touch cb key now).failures = cb.failures ∧
    (touch cb key now).lastFailureTime = cb.lastFailureTime := by
  by_cases h : CanHalfOpen cb key now
  · rw [touch_eq_of_can cb key now h]
    exact ⟨rfl, rfl, rfl, rfl⟩
  · rw [touch_eq_of_not_can cb key now h]
    exact ⟨rfl, rfl, rfl, rfl⟩

theorem touch_idem (cb : CircuitBreaker) (key : String) (now : Int) :
    touch (touch cb key now) key now = touch cb key now := by
  by_cases h : CanHalfOpen cb key now
  · rw [touch_eq_of_can cb key now h]
    apply touch_eq_of_not_can
    intro hcan
    have hst :
        CircuitBreaker.stateOf
          { cb with state := alSet cb.state key CState.halfOpen } key =
          CState.halfOpen := by
      unfold CircuitBreaker.stateOf
      simp [alGet_alSet_self]
    exact absurd (hst.symm.trans hcan.1) (by decide)
  · rw [touch_eq_of_not_can cb key now h, touch_eq_of_not_can cb key now h]

/-- `cb2` differs from `cb` at most by open-and-elapsed circuits having
moved to half-open; counts, stamps and configuration agree. -/
def StatusEvol (cb cb2 : CircuitBreaker) (now : Int) : Prop :=
  cb2.failureThreshold = cb.failureThreshold ∧
  cb2.resetTimeoutMs = cb.resetTimeoutMs ∧
  cb2.failures = cb.failures ∧
  cb2.lastFailureTime = cb.lastFailureTime ∧
  ∀ key, cb2.stateOf key = cb.stateOf key ∨
    (CanHalfOpen cb key now ∧ cb2.stateOf key = CState.halfOpen)

theorem statusEvol_refl (cb : CircuitBreaker) (now : Int) :
    StatusEvol cb cb now :=
  ⟨rfl, rfl, rfl, rfl, fun _ => Or.inl rfl⟩

theorem canHalfOpen_congr (cb cb2 : CircuitBreaker) (key : String)
    (now : Int) (hth : cb2.resetTimeoutMs = cb.resetTimeoutMs)
    (hlf : cb2.lastFailureTime = cb.lastFailureTime)
    (hst : cb2.stateOf key = cb.stateOf key) :
    CanHalfOpen cb2 key now ↔ CanHalfOpen cb key now := by
  unfold CanHalfOpen
  rw [hth, hlf, hst]

theorem statusEvol_touch (cb cb2 : CircuitBreaker) (key : String)
    (now : Int) (h : StatusEvol cb cb2 now) :
    StatusEvol cb (touch cb2 key now) now := by
  obtain ⟨hth, hrt, hfa, hlf, hst⟩ := h
  obtain ⟨tth, trt, tfa, tlf⟩ := touch_fields cb2 key now
  refine ⟨tth.trans hth, trt.trans hrt, tfa.trans hfa, tlf.trans hlf, ?_⟩
  intro k
  by_cases hk : k = key
  · subst hk
    by_cases hcan : CanHalfOpen cb2 k now
    · right
      have hopen2 : cb2.stateOf k = CState.opened := hcan.1
      have hcan0 : CanHalfOpen cb k now := by
        rcases hst k with h1 | h1
        · exact (canHalfOpen_congr cb cb2 k now hrt hlf h1).mp hcan
        · rw [h1.2] at hopen2
          exact absurd hopen2 (by decide)
      refine ⟨hcan0, ?_⟩
      rw [touch_eq_of_can cb2 k now hcan]
      unfold CircuitBreaker.stateOf
      simp [alGet_alSet_self]
    · rw [touch_eq_of_not_can cb2 k now hcan]
      exact hst k
  · have : (touch cb2 key now).stateOf k = cb2.stateOf k := by
      by_cases hcan : CanHalfOpen cb2 key now
      · rw [touch_eq_of_can cb2 key now hcan]
        unfold CircuitBreaker.stateOf
        rw [alGet_alSet_ne cb2.state key k CState.halfOpen hk]
      · rw [touch_eq_of_not_can cb2 key now hcan]
    rw [this]
    exact hst k

theorem statusEvol_foldTouch (cb : CircuitBreaker) (now : Int) :
    ∀ (keys : List String) (cb2 : CircuitBreaker),
      StatusEvol cb cb2 now →
      StatusEvol cb (keys.foldl (fun c k => touch c k now) cb2) now := by
  intro keys
  induction keys with
  | nil => intro cb2 h; simpa using h
  | cons k t ih =>
      intro cb2 h
      simpa using ih (touch cb2 k now) (statusEvol_touch cb cb2 k now h)

theorem getState_snd (cb : CircuitBreaker) (key : String) (now : Int) :
    (cb.getState key now).2 = touch cb key now := by
  unfold CircuitBreaker.getState touch
  by_cases h : (cb.isOpen key now).1 = true
  · simp [h]
  · simp [h]

theorem getRemainingResetTime_snd (cb : CircuitBreaker) (key : String)
    (now : Int) :
    (cb.getRemainingResetTime key now).2 = touch cb key now := by
  unfold CircuitBreaker.getRemainingResetTime
  by_cases h : (cb.getState key now).1 ≠ CState.opened
  · simp [h, getState_snd]
  · simp only [h, if_false]
    cases hlf : alGet (cb.getState key now).2.lastFailureTime key with
    | none => simp [getState_snd]
    | some lf =>
        by_cases hz : lf = 0
        · simp [hz, getState_snd]
        · simp [hz, getState_snd]

theorem getAllStatuses_snd (cb : CircuitBreaker) (now : Int) :
    (cb.getAllStatuses now).2 =
      (dedupKeys (cb.failures.map Prod.fst ++ cb.state.map Prod.fst)).foldl
        (fun c k => touch c k now) cb := by
  unfold CircuitBreaker.getAllStatuses
  generalize dedupKeys (cb.failures.map Prod.fst ++ cb.state.map Prod.fst)
    = keys
  suffices h : ∀ (keys : List String) (acc : List CircuitBreaker.Status)
      (c : CircuitBreaker),
      (keys.foldl
        (fun acc k =>
          let r1 := acc.2.getState k now
          let fails := r1.2.getFailureCount k
          let r2 := r1.2.getRemainingResetTime k now
          (acc.1 ++ [{ key := k, state := r1.1, failures := fails
                       remainingResetTime := r2.1 }], r2.2))
        (acc, c)).2 = keys.foldl (fun c k => touch c k now) c by
    exact h keys [] cb
  intro keys
  induction keys with
  | nil => intro acc c; rfl
  | cons k t ih =>
      intro acc c
      simp only [List.foldl_cons]
      rw [ih]
      have hstep :
          ((c.getState k now).2.getRemainingResetTime k now).2 =
            touch c k now := by
        rw [getRemainingResetTime_snd, getState_snd, touch_idem]
      rw [hstep]

theorem getStatusCB_eq_foldTouch (cb : CircuitBreaker)
    (accounts : List Account) (now : Int) :
    getStatusCB cb accounts now =
      ((dedupKeys (cb.failures.map Prod.fst ++ cb.state.map Prod.fst)) ++
        accounts.map (fun a => a.username)).foldl
        (fun c k => touch c k now) cb := by
  unfold getStatusCB
  rw [List.foldl_append, ← getAllStatuses_snd]
  generalize (cb.getAllStatuses now).2 = c0
  induction accounts generalizing c0 with
  | nil => rfl
  | cons a t ih =>
      simp only [List.foldl_cons, List.map_cons]
      rw [getState_snd]
      exact ih (touch c0 a.username now)

/-- Claim C2 counterexample: with the tripped breaker (open at time 5,
reset timeout 100), a `getStatus` aggregation at time 200 moves the
circuit for `a` from open to half-open — the call is not side-effect-free
on the circuit state. -/
theorem getStatus_mutates :
    cbTripped.stateOf "a" = CState.opened ∧
    (getStatusCB cbTripped [] 200).stateOf "a" = CState.halfOpen := by
  constructor <;> rfl

/-- Claim C2 (amended): `getStatus` leaves every circuit's failure count,
last-failure stamp and the breaker configuration unchanged, and the only
state change it can make is moving a circuit that is open with an elapsed
reset timeout to half-open (through `getState`, which polls `isOpen`);
every other circuit keeps its state, and the rest of what `getStatus`
reads is pure. -/
theorem getStatus_frame (cb : CircuitBreaker) (accounts : List Account)
    (now : Int) :
    (getStatusCB cb accounts now).failures = cb.failures ∧
    (getStatusCB cb accounts now).lastFailureTime = cb.lastFailureTime ∧
    (getStatusCB cb accounts now).failureThreshold = cb.failureThreshold ∧
    (getStatusCB cb accounts now).resetTimeoutMs = cb.resetTimeoutMs ∧
    ∀ key, (getStatusCB cb accounts now).stateOf key = cb.stateOf key ∨
      (CanHalfOpen cb key now ∧
        (getStatusCB cb accounts now).stateOf key = CState.halfOpen) := by
  have h := statusEvol_foldTouch cb now
    ((dedupKeys (cb.failures.map Prod.fst ++ cb.state.map Prod.fst)) ++
      accounts.map (fun a => a.username)) cb (statusEvol_refl cb now)
  rw [← getStatusCB_eq_foldTouch] at h
  exact ⟨h.2.2.1, h.2.2.2.1, h.1, h.2.1, h.2.2.2.2⟩
